import Mathlib

/-!
Shallow embedding of `starling/__main__.py`: a generative MIDI melody tool.

Randomness is modelled by explicit choice streams: `random.sample(xs, 1)[0]`
becomes indexing a stream value modulo the list length, `np.random.rand`
becomes a stream of rationals in `[0, 1)`, and the unbounded sampling loop of
`get_timings` becomes a fuel-indexed recursion returning `Option`.
-/

namespace Starling

/-- The static scale registry `SCALE_DICT` from `get_scale`, verbatim. -/
def SCALE_DICT : List (String × List Nat) :=
  [("major", [2,2,1,2,2,2,1]),
   ("minor", [2,1,2,2,1,2,2]),
   ("chrom", [1,1,1,1,1,1,1,1,1,1,1,1]),
   ("ionanian", [2,2,1,2,2,2,1]),
   ("dorian", [2,1,2,2,2,1,2]),
   ("phrygian", [1,2,2,2,1,2,2]),
   ("lydian", [2,2,2,1,2,2,1]),
   ("mixolydian", [2,2,1,2,2,1,2]),
   ("aeolian", [2,1,2,2,1,2,2]),
   ("locrian", [1,2,2,1,2,2,2]),
   ("minor_pent", [3,2,2,3,2]),
   ("major_pent", [2,2,3,2,3]),
   ("pent_6", [2,2,3,1,3]),
   ("pent_2", [1,3,3,2,3]),
   ("pent_3", [2,1,4,2,3]),
   ("pent_5", [2,2,2,3,3]),
   ("mixo_pent", [2,2,3,3,2]),
   ("phryg_pent", [1,2,3,1,3]),
   ("dim_pent", [2,1,3,1,3]),
   ("blues", [3,2,1,1,3,2]),
   ("harmonic_minor", [2,1,2,2,1,3,2]),
   ("melodic_mimnor", [2,1,2,2,1,3,2]),
   ("whole_tone", [2,2,2,2,2,2]),
   ("whole_half", [2,1,2,1,2,1,2,1]),
   ("half_whole", [1,2,1,2,1,2,1,2])]

/-- `np.cumsum` with a running accumulator: `cumsumFrom 0 [a,b,c] = [a, a+b, a+b+c]`. -/
def cumsumFrom (acc : Nat) : List Nat → List Nat
  | [] => []
  | x :: xs => (acc + x) :: cumsumFrom (acc + x) xs

/-- `get_scale`: `notes = [key] + [(key + i) for i in np.cumsum(SCALE_DICT[scale])]`.
The uncaught `KeyError` on an unknown scale name is modelled as `none`. -/
def get_scale (scale : String) (key : Int) : Option (List Int) :=
  (SCALE_DICT.lookup scale).map fun pat =>
    key :: (cumsumFrom 0 pat).map fun i => key + Int.ofNat i

/-- One iteration of the octave scaling loop in `__main__`:
`SCALE += [(12*oct)+note for note in SCALE[:-1]]`. -/
def oct_step (oct : Nat) (s : List Int) : List Int :=
  s ++ s.dropLast.map fun note => 12 * (oct : Int) + note

/-- The full pitch-set construction in `__main__`:
`SCALE = [(OCTAVE*12 + note) for note in get_scale(...)]` followed by
`for oct in range(1, OCTAVE_RANGE): SCALE += [(12*oct)+note for note in SCALE[:-1]]`.
(The guard `if OCTAVE_RANGE != 1` is redundant: `range(1, 1)` is empty, as is
`range(1, R)` for `R ≤ 1`, which Nat subtraction reproduces.) -/
def build_scale (scaleName : String) (key : Int) (octave : Int) (octRange : Nat) :
    Option (List Int) :=
  (get_scale scaleName key).map fun notes =>
    (List.range' 1 (octRange - 1)).foldl (fun acc oct => oct_step oct acc)
      (notes.map fun note => octave * 12 + note)

/-- The duration vocabulary `BEATS` of `get_timings`; Python `int(beat/4)` and
`int(beat/2)` truncate, which is Nat division for nonnegative `beat`. -/
def BEATS (beat : Nat) : List Nat :=
  [beat / 4, beat / 2, beat, beat * 2, beat * 4]

/-- `random.sample(BEATS, 1)[0]`: one uniform draw from the vocabulary, driven
by a choice value reduced modulo the vocabulary size. -/
def pickBeat (beat : Nat) (c : Nat) : Nat :=
  (BEATS beat).getD (c % 5) 0

/-- The `while total_steps > 0` sampling loop of `get_timings`, fuel-indexed.
`total` is `total_steps` (an `Int`, since it may go negative), `acc` holds the
sampled durations in reverse, and the choice stream is consumed at index
`acc.length` (one fresh draw per iteration). -/
def timingsLoop (beat : Nat) (choice : Nat → Nat) :
    Nat → Int → List Nat → Option (List Nat)
  | 0, total, acc => if 0 < total then none else some acc.reverse
  | fuel + 1, total, acc =>
    if 0 < total then
      let d := pickBeat beat (choice acc.length)
      timingsLoop beat choice fuel (total - (d : Int)) (d :: acc)
    else some acc.reverse

/-- `get_timings`: uniform mode returns `[beat] * max_length`; random mode runs
the sampling loop starting from `total_steps = beat * max_length`. -/
def get_timings (beat maxLength : Nat) (randBeat : Bool) (choice : Nat → Nat)
    (fuel : Nat) : Option (List Nat) :=
  if randBeat then
    timingsLoop beat choice fuel ((beat * maxLength : Nat) : Int) []
  else
    some (List.replicate maxLength beat)

/-- `random.sample(scale, 1)[0]`: one uniform draw from the pitch set. -/
def sampleScale (scale : List Int) (c : Nat) : Int :=
  scale.getD (c % scale.length) 0

/-- `melody = [random.sample(scale, 1)[0] for i in range(len(timings))]`. -/
def baseMelody (scale : List Int) (n : Nat) (mch : Nat → Nat) : List Int :=
  (List.range n).map fun i => sampleScale scale (mch i)

/-- `random.sample([-1, 1], 1)[0]`: the ±1 semitone shift. -/
def devShift (dir : Bool) : Int := if dir then 1 else -1

/-- The deviance pass of `gen_melody`: `idx = np.argwhere(px <= note_deviance)`
followed by `melody[i] += random.sample([-1,1],1)[0]` for each selected index.
Since `argwhere` lists each position at most once, this is a pointwise
conditional update; `i` is the position of the head of `ms` in the melody. -/
def applyDeviance (dev : ℚ) (px : Nat → ℚ) (dir : Nat → Bool) :
    Nat → List Int → List Int
  | _, [] => []
  | i, m :: ms =>
    (if px i ≤ dev then m + devShift (dir i) else m) :: applyDeviance dev px dir (i + 1) ms

/-- `gen_melody(scale, timings, note_deviance)` with explicit random streams:
`mch` drives the pitch draws, `px` is the `np.random.rand` vector, `dir` the
±1 direction draws. -/
def gen_melody (scale : List Int) (timings : List Nat) (dev : ℚ)
    (mch : Nat → Nat) (px : Nat → ℚ) (dir : Nat → Bool) : List Int :=
  applyDeviance dev px dir 0 (baseMelody scale timings.length mch)

/-- A `mido.Message` of kind `note_on` (`isOn = true`) or `note_off`. -/
structure Message where
  isOn : Bool
  note : Int
  velocity : Nat
  time : Nat
  deriving DecidableEq, Repr, Inhabited

/-- The `rests == True` branch of `build_melody`'s per-track loop: cursor `t`,
on-event at time `t`, off-event at time `timing + t`, then `t += timing`. -/
def trackRests (velocity : Nat) : List (Int × Nat) → Nat → List Message
  | [], _ => []
  | (note, timing) :: rest, t =>
    ⟨true, note, velocity, t⟩ :: ⟨false, note, velocity, timing + t⟩ ::
      trackRests velocity rest (t + timing)

/-- The default (`rests == False`) branch: on-event at time `1`, off-event at
time `timing + 1`. -/
def trackNoRests (velocity : Nat) : List (Int × Nat) → List Message
  | [] => []
  | (note, timing) :: rest =>
    ⟨true, note, velocity, 1⟩ :: ⟨false, note, velocity, timing + 1⟩ ::
      trackNoRests velocity rest

/-- Per-track event assembly: `zip(melody, timings)` fed to the branch chosen
by `rests`. -/
def assemble_track (melody : List Int) (timings : List Nat) (velocity : Nat)
    (rests : Bool) : List Message :=
  if rests then trackRests velocity (melody.zip timings) 0
  else trackNoRests velocity (melody.zip timings)

/-- The per-track random state consumed by one iteration of `build_melody`'s
voice loop: timing choices and fuel, melody pitch choices, the deviance
probability vector, and the ±1 direction draws. -/
structure TrackRand where
  tch : Nat → Nat
  fuel : Nat
  mch : Nat → Nat
  px : Nat → ℚ
  dir : Nat → Bool

/-- Build one track: `timings = get_timings(...)`, `melody = gen_melody(...)`,
then the chosen assembly branch. `none` propagates a non-terminating timing
loop (exhausted fuel). -/
def build_track (scale : List Int) (dev : ℚ) (beat maxLength : Nat)
    (randBeat : Bool) (velocity : Nat) (rests : Bool) (r : TrackRand) :
    Option (List Message) :=
  (get_timings beat maxLength randBeat r.tch r.fuel).map fun timings =>
    assemble_track (gen_melody scale timings dev r.mch r.px r.dir) timings velocity rests

/-- Sequence track construction over a list of voice indices. -/
def buildTracks (f : Nat → Option (List Message)) : List Nat → Option (List (List Message))
  | [] => some []
  | v :: vs => (f v).bind fun tr => (buildTracks f vs).map fun rest => tr :: rest

/-- A constant per-track random state used to exercise the pipeline on
concrete inputs. -/
def constRnd : TrackRand := ⟨fun _ => 0, 0, fun _ => 0, fun _ => 1, fun _ => true⟩

/-- `build_melody`: `for v in range(tracks)` append one independently built
track; `rnd v` is the random state consumed by voice `v`. -/
def build_melody (scale : List Int) (tracks : Nat) (dev : ℚ)
    (beat maxLength : Nat) (randBeat : Bool) (velocity : Nat) (rests : Bool)
    (rnd : Nat → TrackRand) : Option (List (List Message)) :=
  buildTracks (fun v => build_track scale dev beat maxLength randBeat velocity rests (rnd v))
    (List.range tracks)

/-! ### Scale construction lemmas -/

theorem cumsumFrom_length (acc : Nat) (l : List Nat) :
    (cumsumFrom acc l).length = l.length := by
  induction l generalizing acc with
  | nil => rfl
  | cons x xs ih => simp [cumsumFrom, ih]

theorem foldl_oct_step_append (l : List Nat) :
    ∀ s : List Int, ∃ t, l.foldl (fun acc oct => oct_step oct acc) s = s ++ t := by
  induction l with
  | nil => intro s; exact ⟨[], by simp⟩
  | cons o os ih =>
    intro s
    obtain ⟨t, ht⟩ := ih (oct_step o s)
    refine ⟨s.dropLast.map (fun note => 12 * (o : Int) + note) ++ t, ?_⟩
    rw [List.foldl_cons, ht]
    simp [oct_step, List.append_assoc]

theorem oct_step_length (o : Nat) (s : List Int) :
    (oct_step o s).length = s.length + (s.length - 1) := by
  simp [oct_step]

theorem foldl_oct_step_length (l : List Nat) :
    ∀ s : List Int, 1 ≤ s.length →
      (l.foldl (fun acc oct => oct_step oct acc) s).length
        = 2 ^ l.length * (s.length - 1) + 1 := by
  induction l with
  | nil => intro s hs; simp; omega
  | cons o os ih =>
    intro s hs
    rw [List.foldl_cons]
    have h1 : 1 ≤ (oct_step o s).length := by rw [oct_step_length]; omega
    rw [ih (oct_step o s) h1, oct_step_length]
    have h2 : s.length + (s.length - 1) - 1 = 2 * (s.length - 1) := by omega
    rw [h2, List.length_cons, pow_succ]
    ring

/-- Claim C9: `get_scale` fails (returns nothing, modelling the `KeyError` the
spec names `UnknownScaleError`) if and only if the scale name is absent from
the static registry; for a registered name it returns the pitch set built from
the pattern. -/
theorem get_scale_fails_iff_unknown (name : String) (key : Int) :
    (get_scale name key = none ↔ SCALE_DICT.lookup name = none) ∧
    ∀ p, SCALE_DICT.lookup name = some p →
      get_scale name key = some (key :: (cumsumFrom 0 p).map fun i => key + Int.ofNat i) := by
  constructor
  · cases h : SCALE_DICT.lookup name <;> simp [get_scale, h]
  · intro p hp
    simp [get_scale, hp]

/-- Witness for C9 at the registered name "major". -/
theorem get_scale_fails_iff_unknown_check :
    get_scale "major" 60 =
      some (60 :: (cumsumFrom 0 [2,2,1,2,2,2,1]).map fun i => 60 + Int.ofNat i) :=
  (get_scale_fails_iff_unknown "major" 60).2 [2,2,1,2,2,2,1] (by decide)

/-- Claim C2 counterexample: for the registered "major" pattern (7 steps) and
octave_range 3, the code's pitch set has 29 elements, not 3·7+1 = 22: the
replication loop appends a shifted copy of the whole current (growing) set, so
the length doubles (minus one) per octave instead of growing linearly. -/
theorem octave_replication_length_cex :
    ((build_scale "major" 60 0 3).getD []).length = 29 ∧ (29 : Nat) ≠ 3 * 7 + 1 := by
  decide

/-- Claim C2 (amended): for every registered pattern and every octave_range
R ≥ 1, the replicated pitch set has the R = 1 pitch set as its first
len(pattern)+1 elements, and its total length is 2^(R-1)·len(pattern)+1 (the
loop doubles the set, minus one, at each of its R-1 iterations). -/
theorem octave_replication_doubling (name : String) (p : List Nat) (key octave : Int)
    (R : Nat) (hp : SCALE_DICT.lookup name = some p) (hR : 1 ≤ R) :
    ∃ base s, build_scale name key octave 1 = some base ∧
      build_scale name key octave R = some s ∧
      s.take base.length = base ∧
      s.length = 2 ^ (R - 1) * p.length + 1 := by
  have hg : get_scale name key =
      some (key :: (cumsumFrom 0 p).map fun i => key + Int.ofNat i) := by
    simp [get_scale, hp]
  set notes := key :: (cumsumFrom 0 p).map fun i => key + Int.ofNat i with hnotes
  set base := notes.map fun note => octave * 12 + note with hbase
  have hblen : base.length = p.length + 1 := by
    simp [hbase, hnotes, cumsumFrom_length]
  obtain ⟨t, ht⟩ := foldl_oct_step_append (List.range' 1 (R - 1)) base
  refine ⟨base, (List.range' 1 (R - 1)).foldl (fun acc oct => oct_step oct acc) base,
    ?_, ?_, ?_, ?_⟩
  · simp [build_scale, hg]
  · simp [build_scale, hg]
  · rw [ht]
    exact List.take_left base t
  · rw [foldl_oct_step_length (List.range' 1 (R - 1)) base (by omega), hblen]
    simp [List.length_range']

/-- Witness for C2's amended theorem at scale "major", octave_range 3. -/
theorem octave_replication_doubling_check :
    ∃ base s, build_scale "major" 60 0 1 = some base ∧
      build_scale "major" 60 0 3 = some s ∧
      s.take base.length = base ∧
      s.length = 2 ^ (3 - 1) * ([2,2,1,2,2,2,1] : List Nat).length + 1 :=
  octave_replication_doubling "major" [2,2,1,2,2,2,1] 60 0 3 (by decide) (by norm_num)

/-- Claim C3 (code bug): at scale "major", key 60, octave 0, octave_range 2,
the replication loop duplicates the seam pitch 72: the loop slices the last
element off the copied span, but shifting the copy by +12 recreates the span's
top note (root+12), which is still present as the base's final element. The
code's own comment says the slice exists to skip the already-present octave
note, so the duplicate contradicts the code's stated intent. -/
theorem octave_replication_duplicate_seam :
    build_scale "major" 60 0 2 =
      some [60,62,64,65,67,69,71,72,72,74,76,77,79,81,83] ∧
    ((build_scale "major" 60 0 2).getD []).count 72 = 2 := by
  decide

/-! ### Timing generation lemmas -/

theorem pickBeat_mem (beat c : Nat) : pickBeat beat c ∈ BEATS beat := by
  have h5 : c % 5 < (BEATS beat).length := by
    simpa [BEATS] using Nat.mod_lt c (by omega)
  rw [pickBeat, List.getD_eq_getElem (BEATS beat) 0 h5]
  exact List.getElem_mem h5

theorem BEATS_pos (beat : Nat) (hb : 4 ≤ beat) : ∀ d ∈ BEATS beat, 0 < d := by
  intro d hd
  simp only [BEATS, List.mem_cons, List.mem_singleton, List.not_mem_nil, or_false] at hd
  rcases hd with rfl | rfl | rfl | rfl | rfl <;> omega

/-- If the loop is entered with a non-positive budget it returns the
accumulator immediately, whatever the fuel. -/
theorem timingsLoop_stop (beat : Nat) (choice : Nat → Nat) (fuel : Nat)
    (total : Int) (acc ts : List Nat) (h0 : ¬ 0 < total)
    (h : timingsLoop beat choice fuel total acc = some ts) : ts = acc.reverse := by
  cases fuel <;> simp only [timingsLoop, if_neg h0, Option.some.injEq] at h <;> exact h.symm

/-- Loop invariant: a successful run entered with a positive budget appends a
non-empty block of sampled durations whose sum first reaches the budget at the
final sample. -/
theorem timingsLoop_sum (beat : Nat) (choice : Nat → Nat) :
    ∀ (fuel : Nat) (total : Int) (acc ts : List Nat),
      timingsLoop beat choice fuel total acc = some ts → 0 < total →
      ∃ ds : List Nat, ds ≠ [] ∧ ts = acc.reverse ++ ds ∧
        total ≤ (ds.sum : Int) ∧ (ds.dropLast.sum : Int) < total := by
  intro fuel
  induction fuel with
  | zero =>
    intro total acc ts h h0
    simp [timingsLoop, if_pos h0] at h
  | succ fuel ih =>
    intro total acc ts h h0
    simp only [timingsLoop, if_pos h0] at h
    set d := pickBeat beat (choice acc.length) with hd
    by_cases h1 : 0 < total - (d : Int)
    · obtain ⟨ds', hne, hts, hsum, hlast⟩ := ih (total - (d : Int)) (d :: acc) ts h h1
      obtain ⟨e, es, rfl⟩ := List.exists_cons_of_ne_nil hne
      refine ⟨d :: e :: es, by simp, ?_, ?_, ?_⟩
      · rw [hts, List.reverse_cons]
        simp
      · have hcast : ((d :: e :: es).sum : Int) = (d : Int) + (((e :: es).sum : Nat) : Int) := by
          simp
        omega
      · have hcast : ((d :: e :: es).dropLast.sum : Int)
            = (d : Int) + (((e :: es).dropLast.sum : Nat) : Int) := by
          have hdrop : (d :: e :: es).dropLast = d :: (e :: es).dropLast := rfl
          rw [hdrop]
          simp
        omega
    · have hts := timingsLoop_stop beat choice fuel (total - (d : Int)) (d :: acc) ts h1 h
      subst hts
      refine ⟨[d], by simp, by simp, ?_, ?_⟩
      · simp only [List.sum_cons, List.sum_nil, Nat.add_zero]
        omega
      · simpa using h0

/-- Claim C4: whenever the randomized `get_timings` returns, the returned
durations are non-empty, their sum is at least the budget
`beat * max_length`, and the sum without the last element is still below the
budget (the budget is exhausted exactly at the last sample). -/
theorem get_timings_budget (beat maxLength : Nat) (choice : Nat → Nat)
    (fuel : Nat) (ts : List Nat) (hb : 1 ≤ beat) (hm : 1 ≤ maxLength)
    (h : get_timings beat maxLength true choice fuel = some ts) :
    ts ≠ [] ∧ beat * maxLength ≤ ts.sum ∧ ts.dropLast.sum < beat * maxLength := by
  rw [get_timings, if_pos rfl] at h
  have hpos : (0 : Int) < ((beat * maxLength : Nat) : Int) := by
    have : 0 < beat * maxLength := Nat.mul_pos hb hm
    exact_mod_cast this
  obtain ⟨ds, hne, hts, hsum, hlast⟩ :=
    timingsLoop_sum beat choice fuel ((beat * maxLength : Nat) : Int) [] ts h hpos
  rw [List.reverse_nil, List.nil_append] at hts
  subst hts
  refine ⟨hne, ?_, ?_⟩ <;> omega

/-- Witness for C4 at beat 4, max_length 1, a choice stream that always picks
the plain beat, and fuel 5: the loop returns `[4]`. -/
theorem get_timings_budget_check :
    ([4] : List Nat) ≠ [] ∧ 4 * 1 ≤ ([4] : List Nat).sum ∧
      ([4] : List Nat).dropLast.sum < 4 * 1 :=
  get_timings_budget 4 1 (fun _ => 2) 5 [4] (by norm_num) (by norm_num) (by decide)

/-- With `beat = 1` the vocabulary contains the duration `int(1/4) = 0`; a
choice stream that always selects it makes no progress. -/
theorem timingsLoop_zero_choice (fuel : Nat) :
    ∀ (total : Int) (acc : List Nat), 0 < total →
      timingsLoop 1 (fun _ => 0) fuel total acc = none := by
  induction fuel with
  | zero => intro total acc h0; simp [timingsLoop, if_pos h0]
  | succ fuel ih =>
    intro total acc h0
    have hpick : pickBeat 1 0 = 0 := by decide
    simp only [timingsLoop, if_pos h0, hpick]
    simpa using ih total (0 :: acc) h0

/-- Claim C5 counterexample: `base_tick = 1` is positive, yet the duration
vocabulary contains 0 (so not every vocabulary entry is strictly positive) and
the sampling loop does not terminate on the all-zeros sample path: no fuel
makes it return. -/
theorem get_timings_nontermination_cex :
    (0 ∈ BEATS 1) ∧ ¬ ∃ fuel ts, get_timings 1 1 true (fun _ => 0) fuel = some ts := by
  refine ⟨by decide, ?_⟩
  rintro ⟨fuel, ts, h⟩
  rw [get_timings, if_pos rfl] at h
  rw [timingsLoop_zero_choice fuel ((1 * 1 : Nat) : Int) [] (by norm_num)] at h
  exact Option.noConfusion h

/-- Claim C5 (amended): for `base_tick ≥ 4` (so that the truncating division
`base_tick/4` is nonzero) every vocabulary duration is strictly positive, and
the sampling loop terminates on every sample path: `beat * max_length` fuel
always suffices. -/
theorem get_timings_terminates_of_big_beat (beat maxLength : Nat) (hb : 4 ≤ beat) :
    (∀ d ∈ BEATS beat, 0 < d) ∧
    ∀ choice : Nat → Nat, ∃ ts,
      get_timings beat maxLength true choice (beat * maxLength) = some ts := by
  refine ⟨BEATS_pos beat hb, ?_⟩
  intro choice
  have main : ∀ (fuel : Nat) (total : Int) (acc : List Nat), total.toNat ≤ fuel →
      ∃ ts, timingsLoop beat choice fuel total acc = some ts := by
    intro fuel
    induction fuel with
    | zero =>
      intro total acc hfu
      have h0 : ¬ 0 < total := by omega
      exact ⟨acc.reverse, by simp [timingsLoop, if_neg h0]⟩
    | succ fuel ih =>
      intro total acc hfu
      by_cases h0 : 0 < total
      · have hd : 0 < pickBeat beat (choice acc.length) :=
          BEATS_pos beat hb _ (pickBeat_mem beat (choice acc.length))
        simp only [timingsLoop, if_pos h0]
        exact ih (total - (pickBeat beat (choice acc.length) : Int)) _ (by omega)
      · exact ⟨acc.reverse, by simp [timingsLoop, if_neg h0]⟩
  rw [get_timings, if_pos rfl]
  exact main (beat * maxLength) ((beat * maxLength : Nat) : Int) [] (by omega)

/-- Witness for C5's amended theorem at beat 4, max_length 1. -/
theorem get_timings_terminates_of_big_beat_check :
    (∀ d ∈ BEATS 4, 0 < d) ∧
    ∀ choice : Nat → Nat, ∃ ts, get_timings 4 1 true choice (4 * 1) = some ts :=
  get_timings_terminates_of_big_beat 4 1 (by norm_num)

/-! ### Melody generation lemmas -/

theorem baseMelody_length (scale : List Int) (n : Nat) (mch : Nat → Nat) :
    (baseMelody scale n mch).length = n := by
  simp [baseMelody]

theorem sampleScale_mem (scale : List Int) (c : Nat) (hs : scale ≠ []) :
    sampleScale scale c ∈ scale := by
  have hlen : 0 < scale.length := List.length_pos.mpr hs
  have h : c % scale.length < scale.length := Nat.mod_lt c hlen
  rw [sampleScale, List.getD_eq_getElem scale 0 h]
  exact List.getElem_mem h

theorem baseMelody_mem (scale : List Int) (n : Nat) (mch : Nat → Nat)
    (hs : scale ≠ []) : ∀ p ∈ baseMelody scale n mch, p ∈ scale := by
  intro p hp
  simp only [baseMelody, List.mem_map] at hp
  obtain ⟨i, -, rfl⟩ := hp
  exact sampleScale_mem scale (mch i) hs

theorem applyDeviance_length (dev : ℚ) (px : Nat → ℚ) (dir : Nat → Bool) :
    ∀ (i : Nat) (ms : List Int), (applyDeviance dev px dir i ms).length = ms.length := by
  intro i ms
  induction ms generalizing i with
  | nil => rfl
  | cons m ms ih => simp [applyDeviance, ih]

theorem applyDeviance_id (dev : ℚ) (px : Nat → ℚ) (dir : Nat → Bool)
    (hpx : ∀ j, ¬ px j ≤ dev) :
    ∀ (i : Nat) (ms : List Int), applyDeviance dev px dir i ms = ms := by
  intro i ms
  induction ms generalizing i with
  | nil => rfl
  | cons m ms ih => simp [applyDeviance, if_neg (hpx i), ih]

theorem applyDeviance_close (dev : ℚ) (px : Nat → ℚ) (dir : Nat → Bool) :
    ∀ (i : Nat) (ms : List Int), ∀ p ∈ applyDeviance dev px dir i ms,
      ∃ m ∈ ms, (p - m).natAbs ≤ 1 := by
  intro i ms
  induction ms generalizing i with
  | nil => intro p hp; simp [applyDeviance] at hp
  | cons m ms ih =>
    intro p hp
    simp only [applyDeviance, List.mem_cons] at hp
    rcases hp with rfl | hp
    · refine ⟨m, List.mem_cons_self m ms, ?_⟩
      by_cases hc : px i ≤ dev
      · cases hdir : dir i <;> simp [hc, hdir, devShift] <;> omega
      · simp [hc]
    · obtain ⟨m', hm', hle⟩ := ih (i + 1) p hp
      exact ⟨m', List.mem_cons_of_mem m hm', hle⟩

/-- Claim C6 counterexample: `np.random.rand` draws from `[0, 1)`, and `0` is
a legal draw; with note_deviance 0 the code's test `px <= note_deviance`
fires on a zero draw, so the note is shifted out of the pitch set: here the
melody over pitch set `[60]` comes back as `[61]`. -/
theorem gen_melody_zero_draw_cex :
    ((0 : ℚ) ≤ 0 ∧ (0 : ℚ) < 1) ∧
    gen_melody [60] [1] 0 (fun _ => 0) (fun _ => 0) (fun _ => true) = [61] ∧
    (61 : Int) ∉ ([60] : List Int) := by
  refine ⟨by norm_num, by decide, by decide⟩

/-- Claim C6 (amended): with note_deviance 0, provided every uniform draw is
strictly positive (which holds almost surely), every melody pitch is an exact
member of the pitch set; and unconditionally the melody length equals the
timing sequence length. -/
theorem gen_melody_zero_deviance (scale : List Int) (timings : List Nat)
    (mch : Nat → Nat) (px : Nat → ℚ) (dir : Nat → Bool)
    (hs : scale ≠ []) (hpx : ∀ i, 0 < px i) :
    (∀ p ∈ gen_melody scale timings 0 mch px dir, p ∈ scale) ∧
    (gen_melody scale timings 0 mch px dir).length = timings.length := by
  have hid : gen_melody scale timings 0 mch px dir
      = baseMelody scale timings.length mch := by
    rw [gen_melody]
    exact applyDeviance_id 0 px dir (fun j => not_le.mpr (hpx j)) 0 _
  constructor
  · rw [hid]
    exact baseMelody_mem scale timings.length mch hs
  · rw [hid, baseMelody_length]

/-- Witness for C6's amended theorem: pitch set `[60]`, one timing slot, all
draws equal to 1/2. -/
theorem gen_melody_zero_deviance_check :
    (∀ p ∈ gen_melody [60] [1] 0 (fun _ => 0) (fun _ => 1/2) (fun _ => true),
      p ∈ ([60] : List Int)) ∧
    (gen_melody [60] [1] 0 (fun _ => 0) (fun _ => 1/2) (fun _ => true)).length
      = ([1] : List Nat).length :=
  gen_melody_zero_deviance [60] [1] (fun _ => 0) (fun _ => 1/2) (fun _ => true)
    (by simp) (fun _ => by norm_num)

/-- Claim C10: for every pitch set, timing sequence and note_deviance, every
melody pitch differs from some member of the pitch set by at most one
semitone: each position is sampled from the set and then perturbed at most
once, by exactly -1, 0 or +1. -/
theorem gen_melody_within_semitone (scale : List Int) (timings : List Nat)
    (dev : ℚ) (mch : Nat → Nat) (px : Nat → ℚ) (dir : Nat → Bool)
    (hs : scale ≠ []) :
    ∀ p ∈ gen_melody scale timings dev mch px dir,
      ∃ s ∈ scale, (p - s).natAbs ≤ 1 := by
  intro p hp
  obtain ⟨m, hm, hle⟩ := applyDeviance_close dev px dir 0 _ p hp
  exact ⟨m, baseMelody_mem scale timings.length mch hs m hm, hle⟩

/-- Witness for C10: the deviated melody over pitch set `[60]` is `[61]`, and
its pitch 61 stays within one semitone of the set. -/
theorem gen_melody_within_semitone_check :
    ∃ s ∈ ([60] : List Int), ((61 : Int) - s).natAbs ≤ 1 :=
  gen_melody_within_semitone [60] [1] 1 (fun _ => 0) (fun _ => 0) (fun _ => true)
    (by simp) 61 (by decide)

/-! ### Track assembly lemmas -/

theorem trackNoRests_length (vel : Nat) :
    ∀ pairs : List (Int × Nat), (trackNoRests vel pairs).length = 2 * pairs.length := by
  intro pairs
  induction pairs with
  | nil => rfl
  | cons p rest ih =>
    obtain ⟨n, d⟩ := p
    simp [trackNoRests, ih]
    ring

theorem trackRests_length (vel : Nat) :
    ∀ (pairs : List (Int × Nat)) (t : Nat),
      (trackRests vel pairs t).length = 2 * pairs.length := by
  intro pairs
  induction pairs with
  | nil => intro t; rfl
  | cons p rest ih =>
    intro t
    obtain ⟨n, d⟩ := p
    simp [trackRests, ih]
    ring

theorem assemble_track_length (melody : List Int) (timings : List Nat)
    (vel : Nat) (rests : Bool) :
    (assemble_track melody timings vel rests).length
      = 2 * min melody.length timings.length := by
  cases rests <;>
    simp [assemble_track, trackRests_length, trackNoRests_length, List.length_zip]

theorem gen_melody_length (scale : List Int) (timings : List Nat) (dev : ℚ)
    (mch : Nat → Nat) (px : Nat → ℚ) (dir : Nat → Bool) :
    (gen_melody scale timings dev mch px dir).length = timings.length := by
  rw [gen_melody, applyDeviance_length, baseMelody_length]

theorem trackNoRests_time (vel : Nat) :
    ∀ (pairs : List (Int × Nat)) (i : Nat), i < pairs.length →
      ((trackNoRests vel pairs).getD (2*i) default).time = 1 ∧
      ((trackNoRests vel pairs).getD (2*i+1) default).time = (pairs.getD i (0,0)).2 + 1 := by
  intro pairs
  induction pairs with
  | nil => intro i hi; simp at hi
  | cons p rest ih =>
    intro i hi
    obtain ⟨n, d⟩ := p
    cases i with
    | zero => constructor <;> simp [trackNoRests]
    | succ i =>
      have e1 : 2 * (i + 1) = 2 * i + 1 + 1 := by ring
      have e2 : 2 * (i + 1) + 1 = 2 * i + 1 + 1 + 1 := by ring
      rw [e2, e1]
      simp only [trackNoRests, List.getD_cons_succ]
      exact ih i (by simpa using hi)

theorem trackRests_time (vel : Nat) :
    ∀ (pairs : List (Int × Nat)) (t : Nat) (i : Nat), i < pairs.length →
      ((trackRests vel pairs t).getD (2*i) default).time
        = t + ((pairs.map Prod.snd).take i).sum ∧
      ((trackRests vel pairs t).getD (2*i+1) default).time
        = t + ((pairs.map Prod.snd).take (i+1)).sum := by
  intro pairs
  induction pairs with
  | nil => intro t i hi; simp at hi
  | cons p rest ih =>
    intro t i hi
    obtain ⟨n, d⟩ := p
    cases i with
    | zero =>
      constructor
      · simp [trackRests]
      · simp [trackRests, List.take_succ_cons]
        omega
    | succ i =>
      have e1 : 2 * (i + 1) = 2 * i + 1 + 1 := by ring
      have e2 : 2 * (i + 1) + 1 = 2 * i + 1 + 1 + 1 := by ring
      rw [e2, e1]
      simp only [trackRests, List.getD_cons_succ]
      have hrec := ih (t + d) i (by simpa using hi)
      constructor
      · rw [hrec.1]
        simp only [List.map_cons, List.take_succ_cons, List.sum_cons]
        omega
      · rw [hrec.2]
        simp only [List.map_cons, List.take_succ_cons, List.sum_cons]
        omega

/-- Claim C7: with rests disabled, every on-event has time delta 1 and every
off-event has time delta equal to that note's duration plus 1, for every note
of the zipped melody/timing sequence. -/
theorem assemble_norests_deltas (melody : List Int) (timings : List Nat)
    (vel : Nat) (i : Nat) (h1 : i < melody.length) (h2 : i < timings.length) :
    ((assemble_track melody timings vel false).getD (2*i) default).time = 1 ∧
    ((assemble_track melody timings vel false).getD (2*i+1) default).time
      = timings[i] + 1 := by
  have hz : i < (melody.zip timings).length := by
    rw [List.length_zip]
    omega
  constructor
  · have h := (trackNoRests_time vel (melody.zip timings) i hz).1
    simpa [assemble_track] using h
  · have h := (trackNoRests_time vel (melody.zip timings) i hz).2
    rw [List.getD_eq_getElem _ _ hz, List.getElem_zip] at h
    simpa [assemble_track] using h

/-- Witness for C7 at melody `[60, 61]`, timings `[3, 5]`, note 1. -/
theorem assemble_norests_deltas_check :
    ((assemble_track [60, 61] [3, 5] 9 false).getD (2*1) default).time = 1 ∧
    ((assemble_track [60, 61] [3, 5] 9 false).getD (2*1+1) default).time
      = ([3, 5] : List Nat)[1] + 1 :=
  assemble_norests_deltas [60, 61] [3, 5] 9 1 (by norm_num) (by norm_num)

/-- Claim C1 counterexample: with rests enabled, melody `[60,60,60]` and
timings `[1,2,3]`, the on-event of note 2 (event index 2·2) has time delta 3
(the accumulated sum 1+2), not the duration 2 of note 1 as the claim states:
the cursor is advanced with `t += timing`, not reset to the duration. -/
theorem rests_on_delta_not_previous_duration :
    ((assemble_track [60, 60, 60] [1, 2, 3] 100 true).getD (2*2) default).time = 3 ∧
    ([1, 2, 3] : List Nat).getD 1 0 = 2 ∧ (3 : Nat) ≠ 2 := by
  decide

/-- Claim C1 (amended): with rests enabled the first on-event has time delta 0
and, in general, the on-event of note i has delta equal to the sum of the
durations of notes 0..i-1 (the cursor accumulates, `t += timing`); the
off-event of note i has delta equal to the sum of durations 0..i. -/
theorem assemble_rests_cumulative (melody : List Int) (timings : List Nat)
    (vel : Nat) (hlen : melody.length = timings.length) (i : Nat)
    (h : i < timings.length) :
    ((assemble_track melody timings vel true).getD (2*i) default).time
      = (timings.take i).sum ∧
    ((assemble_track melody timings vel true).getD (2*i+1) default).time
      = (timings.take (i+1)).sum := by
  have hz : i < (melody.zip timings).length := by
    rw [List.length_zip]
    omega
  have hsnd : (melody.zip timings).map Prod.snd = timings :=
    List.map_snd_zip melody timings (by omega)
  have h2 := trackRests_time vel (melody.zip timings) 0 i hz
  rw [hsnd] at h2
  simpa [assemble_track] using h2

/-- Witness for C1's amended theorem at melody `[60,60,60]`, timings
`[1,2,3]`, note 2: on delta = 1+2 = 3, off delta = 1+2+3 = 6. -/
theorem assemble_rests_cumulative_check :
    ((assemble_track [60, 60, 60] [1, 2, 3] 100 true).getD (2*2) default).time
      = (([1, 2, 3] : List Nat).take 2).sum ∧
    ((assemble_track [60, 60, 60] [1, 2, 3] 100 true).getD (2*2+1) default).time
      = (([1, 2, 3] : List Nat).take (2+1)).sum :=
  assemble_rests_cumulative [60, 60, 60] [1, 2, 3] 100 (by decide) 2 (by norm_num)

/-! ### Composition lemmas -/

theorem buildTracks_spec (f : Nat → Option (List Message)) :
    ∀ (vs : List Nat) (l : List (List Message)), buildTracks f vs = some l →
      l.length = vs.length ∧
      ∀ i, i < vs.length → ∃ tr, f (vs.getD i 0) = some tr ∧ l.getD i [] = tr := by
  intro vs
  induction vs with
  | nil =>
    intro l h
    simp only [buildTracks, Option.some.injEq] at h
    subst h
    exact ⟨rfl, fun i hi => absurd hi (by simp)⟩
  | cons v vs ih =>
    intro l h
    rw [buildTracks] at h
    cases hf : f v with
    | none => rw [hf] at h; simp at h
    | some tr =>
      rw [hf] at h
      cases hrest : buildTracks f vs with
      | none => rw [hrest] at h; simp at h
      | some rest =>
        rw [hrest] at h
        simp only [Option.some_bind, Option.map_some', Option.some.injEq] at h
        subst h
        obtain ⟨hlen, hall⟩ := ih rest hrest
        refine ⟨by simp [hlen], ?_⟩
        intro i hi
        cases i with
        | zero => exact ⟨tr, by simpa using hf, rfl⟩
        | succ i => simpa using hall i (by simpa using hi)

theorem build_track_inv (scale : List Int) (dev : ℚ) (beat maxLength : Nat)
    (randBeat : Bool) (velocity : Nat) (rests : Bool) (r : TrackRand)
    (tr : List Message)
    (h : build_track scale dev beat maxLength randBeat velocity rests r = some tr) :
    ∃ ts, get_timings beat maxLength randBeat r.tch r.fuel = some ts ∧
      tr = assemble_track (gen_melody scale ts dev r.mch r.px r.dir) ts velocity rests := by
  rw [build_track] at h
  cases hts : get_timings beat maxLength randBeat r.tch r.fuel with
  | none => rw [hts] at h; simp at h
  | some ts =>
    rw [hts] at h
    simp only [Option.map_some', Option.some.injEq] at h
    exact ⟨ts, rfl, h.symm⟩

/-- Claim C8: for every track count N ≥ 1, a successful `build_melody` run
yields exactly N tracks, and for each voice v there is a timing sequence,
generated from voice v's own random state, such that track v holds exactly
2·len(timings_v) note events (one on/off pair per melody entry, the melody
having one pitch per timing slot). -/
theorem build_melody_track_counts (scale : List Int) (tracks : Nat) (dev : ℚ)
    (beat maxLength : Nat) (randBeat : Bool) (velocity : Nat) (rests : Bool)
    (rnd : Nat → TrackRand) (l : List (List Message)) (hN : 1 ≤ tracks)
    (h : build_melody scale tracks dev beat maxLength randBeat velocity rests rnd
      = some l) :
    l.length = tracks ∧
    ∀ v, v < tracks → ∃ ts,
      get_timings beat maxLength randBeat (rnd v).tch (rnd v).fuel = some ts ∧
      (l.getD v []).length = 2 * ts.length := by
  rw [build_melody] at h
  obtain ⟨hlen, hall⟩ := buildTracks_spec _ (List.range tracks) l h
  refine ⟨by simpa using hlen, ?_⟩
  intro v hv
  have hv' : v < (List.range tracks).length := by simpa using hv
  obtain ⟨tr, hf, htr⟩ := hall v hv'
  have hgr : (List.range tracks).getD v 0 = v := by
    rw [List.getD_eq_getElem _ _ hv', List.getElem_range]
  rw [hgr] at hf
  obtain ⟨ts, hts, htr2⟩ :=
    build_track_inv scale dev beat maxLength randBeat velocity rests (rnd v) tr hf
  refine ⟨ts, hts, ?_⟩
  rw [htr, htr2, assemble_track_length, gen_melody_length]
  simp

/-- Witness for C8: two voices over pitch set `[60]`, uniform timing mode with
beat 1 and max_length 1; each track is one on/off pair. -/
theorem build_melody_track_counts_check :
    ([[⟨true, 60, 7, 1⟩, ⟨false, 60, 7, 2⟩],
      [⟨true, 60, 7, 1⟩, ⟨false, 60, 7, 2⟩]] : List (List Message)).length = 2 ∧
    ∀ v, v < 2 → ∃ ts,
      get_timings 1 1 false constRnd.tch constRnd.fuel = some ts ∧
      (([[⟨true, 60, 7, 1⟩, ⟨false, 60, 7, 2⟩],
         [⟨true, 60, 7, 1⟩, ⟨false, 60, 7, 2⟩]] : List (List Message)).getD v []).length
        = 2 * ts.length :=
  build_melody_track_counts [60] 2 0 1 1 false 7 false (fun _ => constRnd) _
    (by norm_num) (by decide)

end Starling
